import Mathlib

set_option maxHeartbeats 1000000

/-!
Shallow embedding of the ConsultEase faculty desk unit core
(`faculty_desk_unit/optimizations/memory_optimization.cpp` and
`faculty_desk_unit/config.h`): the bounded string accumulator
(`OptimizedStringHandler`), the message processing pipeline
(`optimizedProcessMessage`, `optimizedJSONExtract`), the heap watchdog
(`MemoryMonitor::checkMemory`) and the debounced presence state machine.

C strings are modelled as `List Char` holding the bytes strictly before
the NUL terminator; machine buffers are modelled as functions `Nat → Char`.
Null pointers are modelled with `Option`.
-/

/-- The NUL terminator byte. -/
def NUL : Char := Char.ofNat 0

/-- The byte content of a C string (bytes before the terminator). -/
abbrev Str := List Char

/-- Pointwise update of a byte buffer modelled as a function. -/
def updateBuf (f : Nat → Char) (i : Nat) (c : Char) : Nat → Char :=
  fun j => if j = i then c else f j

/-- Store a block of bytes starting at index `i`. -/
def writeBuf (f : Nat → Char) (i : Nat) : Str → (Nat → Char)
  | [] => f
  | c :: rest => writeBuf (updateBuf f i c) (i + 1) rest

/-- Read a C string out of a buffer: at most `fuel` bytes starting at
index `i`, stopping at the first NUL byte. -/
def readCStr (f : Nat → Char) : Nat → Nat → Str
  | _, 0 => []
  | i, fuel + 1 => if f i = NUL then [] else f i :: readCStr f (i + 1) fuel

/-- `strlen`: number of bytes before the first NUL. -/
def cstrlen (s : Str) : Nat := (s.takeWhile (fun c => c ≠ NUL)).length

/-! ## Bounded string accumulator (`OptimizedStringHandler`) -/

/-- The accumulator state: a fixed-capacity byte buffer and the current
write position (`bufferPos` in the source). The capacity is passed to
each operation (`MAX_MESSAGE_LENGTH` in the source; the spec fixes the
capacity at construction). -/
structure OptimizedStringHandler where
  buffer : Nat → Char
  bufferPos : Nat

namespace OptimizedStringHandler

/-- The zero-initialized global handler (`globalStringHandler` has static
storage duration, so its buffer starts zero-filled and `bufferPos = 0`). -/
def initial : OptimizedStringHandler := ⟨fun _ => NUL, 0⟩

/-- `reset()`: `bufferPos = 0; memset(buffer, 0, C)`. The function model
zeroes every index; only indices below the capacity are ever read. -/
def reset (_s : OptimizedStringHandler) : OptimizedStringHandler :=
  ⟨fun _ => NUL, 0⟩

/-- `append(const char* str)`: rejects when `bufferPos + strlen(str)`
reaches or exceeds `C - 1`, otherwise `strcpy`s the bytes (up to the
first NUL of `str`) plus a terminator and advances `bufferPos`. -/
def appendStr (C : Nat) (s : OptimizedStringHandler) (str : Str) :
    OptimizedStringHandler × Bool :=
  let content := str.takeWhile (fun c => c ≠ NUL)
  if s.bufferPos + content.length ≥ C - 1 then (s, false)
  else (⟨writeBuf s.buffer s.bufferPos (content ++ [NUL]),
         s.bufferPos + content.length⟩, true)

/-- `append(char c)`: rejects when `bufferPos ≥ C - 1`, otherwise stores
`c`, advances, and re-terminates. -/
def appendChar (C : Nat) (s : OptimizedStringHandler) (c : Char) :
    OptimizedStringHandler × Bool :=
  if s.bufferPos ≥ C - 1 then (s, false)
  else (⟨updateBuf (updateBuf s.buffer s.bufferPos c) (s.bufferPos + 1) NUL,
         s.bufferPos + 1⟩, true)

/-- `getString()`: the buffer read as a C string (at most `C` bytes). -/
def getString (C : Nat) (s : OptimizedStringHandler) : Str :=
  readCStr s.buffer 0 C

/-- `length()`: the current byte count. -/
def len (s : OptimizedStringHandler) : Nat := s.bufferPos

end OptimizedStringHandler

/-- One accumulator operation, for stating the all-sequences invariant. -/
inductive AccOp where
  | reset : AccOp
  | appendChar (c : Char) : AccOp
  | appendStr (s : Str) : AccOp

/-- Apply one operation (the boolean success result is dropped). -/
def applyAccOp (C : Nat) (s : OptimizedStringHandler) : AccOp → OptimizedStringHandler
  | AccOp.reset => OptimizedStringHandler.reset s
  | AccOp.appendChar c => (OptimizedStringHandler.appendChar C s c).1
  | AccOp.appendStr str => (OptimizedStringHandler.appendStr C s str).1

/-- Run a sequence of accumulator operations from a starting state. -/
def runAccOps (C : Nat) (s : OptimizedStringHandler) : List AccOp → OptimizedStringHandler
  | [] => s
  | op :: rest => runAccOps C (applyAccOp C s op) rest

/-! ## Heap watchdog (`MemoryMonitor`) -/

/-- Modulus of the C `unsigned long` used by `millis()` on the target. -/
def ULONG_MOD : Nat := 2 ^ 32

/-- Unsigned 32-bit subtraction, as C computes `millis() - lastCheck`. -/
def elapsedMillis (now last : Nat) : Nat :=
  (now % ULONG_MOD + (ULONG_MOD - last % ULONG_MOD)) % ULONG_MOD

/-- The watchdog's static state: `lastCheck` and `minFreeHeap`. -/
structure MemoryMonitorState where
  lastCheck : Nat
  minFreeHeap : Nat
deriving DecidableEq

namespace MemoryMonitor

/-- `MemoryMonitor::checkMemory()`, with the ambient values
`ESP.getFreeHeap()` and `millis()` passed as inputs. Returns the updated
static state and whether `forceGarbageCollection()` was invoked: the
minimum tracker always updates, while the logging block — including the
low-memory warning and the critical-pressure garbage collection — only
runs when more than 30000 ms have elapsed since `lastCheck`. -/
def checkMemory (currentFree now : Nat) (st : MemoryMonitorState) :
    MemoryMonitorState × Bool :=
  let m := if currentFree < st.minFreeHeap then currentFree else st.minFreeHeap
  if elapsedMillis now st.lastCheck > 30000 then
    (⟨now, m⟩, decide (currentFree < 5000))
  else
    (⟨st.lastCheck, m⟩, false)

end MemoryMonitor

/-! ## Message processing pipeline -/

/-- Modelled from the spec: `MAX_MESSAGE_LENGTH` is defined in
`memory_optimization.h`, which is not under `src/`. The spec fixes only
that it is the configured maximum message length; the model pins it to a
concrete buffer size consistent with the source's fixed buffers. -/
def MAX_MESSAGE_LENGTH : Nat := 512

/-- `strstr(hay, pat)`: the suffix of the haystack starting at the first
occurrence of the pattern (`none` when the pattern does not occur). -/
def strstrTail (pat : Str) : Str → Option Str
  | [] => if pat.isPrefixOf [] then some [] else none
  | c :: t => if pat.isPrefixOf (c :: t) then some (c :: t) else strstrTail pat t

/-- `strchr(s, c)` followed by the pointer subtraction the source does:
the bytes of `s` strictly before the first occurrence of `c`, or `none`
when `c` does not occur. -/
def strchrSplit (s : Str) (c : Char) : Option Str :=
  if c ∈ s then some (s.takeWhile (fun a => a ≠ c)) else none

/-- What one call writes into a caller-supplied output buffer: the bytes
before the terminator, and the total number of bytes stored (terminator
included). `bytesWritten = 0` means the buffer was not touched. -/
structure WriteResult where
  content : Str
  bytesWritten : Nat
deriving DecidableEq

/-- Modelled from the spec: the `SAFE_STRING_COPY` macro comes from
`memory_optimization.h`, which is not under `src/`; the spec specifies a
bounded, truncating, always-terminated copy, matching the source's
`optimizedStringCopy`: copy at most `maxLen - 1` bytes of the source C
string, then terminate. -/
def safeStringCopy (src : Str) (maxLen : Nat) : WriteResult :=
  if maxLen = 0 then ⟨[], 0⟩
  else
    let c := (src.takeWhile (fun a => a ≠ NUL)).take (maxLen - 1)
    ⟨c, c.length + 1⟩

/-- The search pattern `"<field>":"` built by `snprintf`. -/
def fieldPattern (k : Str) : Str := '"' :: k ++ '"' :: ':' :: ['"']

/-- One iteration of the fallback field loop of `optimizedProcessMessage`:
find `"<field>":"`, take the value up to the closing quote, and when it is
nonempty and fits (with the 20-byte label margin), append label, value
bytes and a newline to the handler (append results are ignored, as in the
source). The `snprintf` into the 32-byte `searchStr` does not truncate:
every pattern used here is at most 18 bytes. -/
def processField (inp : Str) (field : Str) (label : Str)
    (h : OptimizedStringHandler) : OptimizedStringHandler :=
  match strstrTail (fieldPattern field) inp with
  | none => h
  | some s =>
    match strchrSplit (s.drop (fieldPattern field).length) '"' with
    | none => h
    | some v =>
      if 0 < v.length ∧ h.bufferPos + v.length + 20 < MAX_MESSAGE_LENGTH then
        let h1 := (OptimizedStringHandler.appendStr MAX_MESSAGE_LENGTH h label).1
        let h2 := v.foldl
          (fun a c => (OptimizedStringHandler.appendChar MAX_MESSAGE_LENGTH a c).1) h1
        (OptimizedStringHandler.appendChar MAX_MESSAGE_LENGTH h2 '\n').1
      else h

/-- The fallback rendering of the structured path: scan the three
recognized fields in order into the (reset) global handler, then copy the
handler content into the output with `SAFE_STRING_COPY`. -/
def fallbackRender (inp : Str) (outputSize : Nat) : WriteResult :=
  let h0 := OptimizedStringHandler.reset OptimizedStringHandler.initial
  let h1 := processField inp ("student_name".toList) ("Student: ".toList) h0
  let h2 := processField inp ("course_code".toList) ("Course: ".toList) h1
  let h3 := processField inp ("request_message".toList) ("Request: ".toList) h2
  safeStringCopy (OptimizedStringHandler.getString MAX_MESSAGE_LENGTH h3) outputSize

/-- `optimizedProcessMessage(input, output, outputSize)`. Null pointers
are modelled with `Option`/a boolean flag. On the structured path the
`"message"` short-circuit performs `strncpy(output, messageStart,
messageLen); output[messageLen] = 0`, storing `messageLen + 1` bytes
checked only against `MAX_MESSAGE_LENGTH`; the fallback and plain paths
go through `SAFE_STRING_COPY` bounded by `outputSize`. -/
def optimizedProcessMessage (input : Option Str) (outputIsNull : Bool)
    (outputSize : Nat) : WriteResult :=
  match input with
  | none => ⟨[], 0⟩
  | some inp =>
    if outputIsNull = true ∨ outputSize = 0 then ⟨[], 0⟩
    else if inp.head? = some '{' then
      match strstrTail (fieldPattern ("message".toList)) inp with
      | some s =>
        match strchrSplit (s.drop 11) '"' with
        | some v =>
          if v.length < MAX_MESSAGE_LENGTH - 1 then ⟨v, v.length + 1⟩
          else fallbackRender inp outputSize
        | none => fallbackRender inp outputSize
      | none => fallbackRender inp outputSize
    else safeStringCopy inp outputSize

/-- `optimizedJSONExtract(json, key, value, valueSize)`: null arguments
and a zero capacity are rejected up front; the `snprintf` into the
64-byte `searchPattern` truncates the pattern to 63 bytes; a missing
pattern or missing closing quote returns `false` with nothing written;
otherwise the value is truncated to `valueSize - 1` bytes and
terminated. -/
def optimizedJSONExtract (json key : Option Str) (valueIsNull : Bool)
    (valueSize : Nat) : Bool × WriteResult :=
  match json, key with
  | some j, some k =>
    if valueIsNull = true ∨ valueSize = 0 then (false, ⟨[], 0⟩)
    else
      let pat := (fieldPattern k).take 63
      match strstrTail pat j with
      | none => (false, ⟨[], 0⟩)
      | some s =>
        match strchrSplit (s.drop pat.length) '"' with
        | none => (false, ⟨[], 0⟩)
        | some v =>
          let len := if v.length ≥ valueSize then valueSize - 1 else v.length
          (true, ⟨v.take len, len + 1⟩)
  | _, _ => (false, ⟨[], 0⟩)

/-! ## Structured payloads

The spec's `StructuredPayload` is a mapping from field names to string
values. The model represents it as an association list of NUL-free,
quote-free keys and values and serializes it in the restricted key/value
text format the pipeline parses. -/

/-- An association list of field names and values. -/
abbrev Payload := List (Str × Str)

/-- One serialized pair: `"key":"value"`. -/
def serializeItem (kv : Str × Str) : Str :=
  '"' :: kv.1 ++ '"' :: ':' :: '"' :: kv.2 ++ ['"']

/-- The serialized items after the first one, each preceded by a comma. -/
def sepBody : Payload → Str
  | [] => []
  | kv :: rest => ',' :: (serializeItem kv ++ sepBody rest)

/-- The comma-separated serialized pairs. -/
def bodyStr : Payload → Str
  | [] => []
  | kv :: rest => serializeItem kv ++ sepBody rest

/-- The serialized body followed by the closing brace. -/
def tailStr (p : Payload) : Str := bodyStr p ++ ['}']

/-- The full serialized payload. -/
def serializePayload (p : Payload) : Str := '{' :: tailStr p

/-- Well-formed payload: keys and values carry neither a quote (the
format's delimiter) nor a NUL (they are substrings of a C string). -/
def wfPayload (p : Payload) : Prop :=
  ∀ kv ∈ p, ('"' ∉ kv.1 ∧ NUL ∉ kv.1 ∧ '"' ∉ kv.2 ∧ NUL ∉ kv.2)

instance (p : Payload) : Decidable (wfPayload p) := by
  unfold wfPayload; infer_instance

/-- Well-formed field name being searched for: nonempty and free of the
format's delimiter characters. Every recognized field name of the source
("message", "student_name", "course_code", "request_message")
satisfies this. -/
def wfFieldName (k : Str) : Prop :=
  k ≠ [] ∧ '"' ∉ k ∧ ':' ∉ k ∧ ',' ∉ k

instance (k : Str) : Decidable (wfFieldName k) := by
  unfold wfFieldName; infer_instance

/-- The possible suffixes of a serialized payload, classified by where in
the serialization they start. The invariant behind the `strstr`
alignment argument. -/
inductive Shape (p : Payload) : Str → Prop where
  | whole : Shape p (serializePayload p)
  | atItems (q : Payload) (h : q <:+ p) : Shape p (tailStr q)
  | atComma (q : Payload) (h : q <:+ p) : Shape p (',' :: tailStr q)
  | inKey (k v : Str) (q : Payload) (k' : Str) (h : (k, v) :: q <:+ p)
      (hs : k' <:+ k) :
      Shape p (k' ++ '"' :: ':' :: '"' :: v ++ '"' :: (sepBody q ++ ['}']))
  | atColon (k v : Str) (q : Payload) (h : (k, v) :: q <:+ p) :
      Shape p (':' :: '"' :: v ++ '"' :: (sepBody q ++ ['}']))
  | atValQuote (k v : Str) (q : Payload) (h : (k, v) :: q <:+ p) :
      Shape p ('"' :: v ++ '"' :: (sepBody q ++ ['}']))
  | inVal (k v : Str) (q : Payload) (v' : Str) (h : (k, v) :: q <:+ p)
      (hs : v' <:+ v) :
      Shape p (v' ++ '"' :: (sepBody q ++ ['}']))
  | nil : Shape p []

/-! ## Proximity debounce state machine

Modelled from the spec: the debounce state machine itself is not under
`src/` — only its configured threshold `MAC_DETECTION_DEBOUNCE` (and the
companion timeout and RSSI threshold) appear in
`faculty_desk_unit/config.h`. The transition function below follows
spec §4.4: maintain a streak of same-classification samples, reset the
streak to 1 on an inconsistent sample, and when the streak of a
classification distinct from the current state reaches the threshold,
flip the state, emit one state-change event, and zero the counter.
Every observation updates the last-observation time. -/

/-- `MAC_DETECTION_DEBOUNCE` from `faculty_desk_unit/config.h`. -/
def MAC_DETECTION_DEBOUNCE : Nat := 2

/-- `BLE_RSSI_THRESHOLD` from `faculty_desk_unit/config.h`. -/
def BLE_RSSI_THRESHOLD : Int := -75

/-- The presence state: `current` (`true` = PRESENT), the consecutive
same-classification count, the classification of the running streak, and
the last observation time. -/
structure PresenceState where
  current : Bool
  consecutiveCount : Nat
  streak : Bool
  lastObservationTime : Nat
deriving DecidableEq

/-- Initial state: ABSENT, the conservative default. -/
def initialPresenceState : PresenceState := ⟨false, 0, false, 0⟩

/-- Classify one observation: detected iff the identity matches and the
signal strength reaches the configured threshold. -/
def classifyObservation (identityMatch : Bool) (rssi : Int) : Bool :=
  identityMatch && decide (BLE_RSSI_THRESHOLD ≤ rssi)

/-- One debounce transition on a classified sample `d` at time `t`.
Returns the new state and whether a state-change event was emitted. -/
def debounceStep (N : Nat) (s : PresenceState) (d : Bool) (t : Nat) :
    PresenceState × Bool :=
  let cnt := if s.consecutiveCount ≠ 0 ∧ s.streak = d then s.consecutiveCount + 1 else 1
  if cnt = N ∧ d ≠ s.current then (⟨d, 0, d, t⟩, true)
  else (⟨s.current, cnt, d, t⟩, false)

/-- Run the machine over a list of classified, timestamped samples,
counting emitted state-change events. -/
def debounceRun (N : Nat) (s : PresenceState) :
    List (Bool × Nat) → PresenceState × Nat
  | [] => (s, 0)
  | (d, t) :: rest =>
    let r := debounceStep N s d t
    let r2 := debounceRun N r.1 rest
    (r2.1, (if r.2 then 1 else 0) + r2.2)

/-- A stream of "detected" samples at the given times. -/
def detStream (ts : List Nat) : List (Bool × Nat) :=
  ts.map (fun t => (true, t))

/-- The accumulator's state invariant: the write position stays within
`C - 1` and the byte at the write position is the terminator. -/
def AccInv (C : Nat) (s : OptimizedStringHandler) : Prop :=
  s.bufferPos ≤ C - 1 ∧ s.buffer s.bufferPos = NUL

/-- The closed set of field names the pipeline recognizes. -/
def recognizedFields : List Str :=
  ["message".toList, "student_name".toList, "course_code".toList,
   "request_message".toList]

/-! # Theorems -/

/-! ## Helper lemmas about buffers -/

theorem updateBuf_self (f : Nat → Char) (i : Nat) (c : Char) :
    updateBuf f i c i = c := by
  simp [updateBuf]

theorem writeBuf_last (f : Nat → Char) (i : Nat) (l : Str) (c : Char) :
    writeBuf f i (l ++ [c]) (i + l.length) = c := by
  induction l generalizing f i with
  | nil => simp [writeBuf, updateBuf]
  | cons a t ih =>
    simp only [List.cons_append, writeBuf, List.length_cons]
    have h : i + (t.length + 1) = (i + 1) + t.length := by omega
    rw [h]
    exact ih (updateBuf f i a) (i + 1)

theorem readCStr_length_le (f : Nat → Char) (j : Nat) (hj : f j = NUL) :
    ∀ (fuel i : Nat), i ≤ j → (readCStr f i fuel).length ≤ j - i := by
  intro fuel
  induction fuel with
  | zero => intro i _; simp [readCStr]
  | succ n ih =>
    intro i hij
    by_cases h : f i = NUL
    · simp [readCStr, h]
    · have hne : i ≠ j := fun he => h (he ▸ hj)
      have hlt : i < j := lt_of_le_of_ne hij hne
      have := ih (i + 1) hlt
      simp only [readCStr, if_neg h, List.length_cons]
      omega

theorem accInv_applyAccOp (C : Nat) (s : OptimizedStringHandler) (op : AccOp)
    (h : AccInv C s) : AccInv C (applyAccOp C s op) := by
  cases op with
  | reset =>
    refine ⟨Nat.zero_le _, rfl⟩
  | appendChar c =>
    simp only [applyAccOp, OptimizedStringHandler.appendChar]
    by_cases hc : s.bufferPos ≥ C - 1
    · rw [if_pos hc]; exact h
    · rw [if_neg hc]
      constructor
      · show s.bufferPos + 1 ≤ C - 1
        omega
      · show updateBuf (updateBuf s.buffer s.bufferPos c) (s.bufferPos + 1) NUL
          (s.bufferPos + 1) = NUL
        exact updateBuf_self _ _ _
  | appendStr str =>
    simp only [applyAccOp, OptimizedStringHandler.appendStr]
    by_cases hc : s.bufferPos + (str.takeWhile (fun c => c ≠ NUL)).length ≥ C - 1
    · rw [if_pos hc]; exact h
    · rw [if_neg hc]
      constructor
      · show s.bufferPos + (str.takeWhile (fun c => c ≠ NUL)).length ≤ C - 1
        omega
      · show writeBuf s.buffer s.bufferPos
          ((str.takeWhile (fun c => c ≠ NUL)) ++ [NUL])
          (s.bufferPos + (str.takeWhile (fun c => c ≠ NUL)).length) = NUL
        exact writeBuf_last _ _ _ _

theorem accInv_runAccOps (C : Nat) (ops : List AccOp) (s : OptimizedStringHandler)
    (h : AccInv C s) : AccInv C (runAccOps C s ops) := by
  induction ops generalizing s with
  | nil => exact h
  | cons op rest ih => exact ih _ (accInv_applyAccOp C s op h)

/-- C4: after any sequence of accumulator operations starting from the
zero-initialized handler, the length never exceeds `capacity − 1`, the
buffer byte at index `length` is the terminator, and reading the buffer
as a C string (`getString`) stops within `length` bytes. -/
theorem accumulator_invariant_all_sequences (C : Nat) (ops : List AccOp) :
    (runAccOps C OptimizedStringHandler.initial ops).bufferPos ≤ C - 1 ∧
    (runAccOps C OptimizedStringHandler.initial ops).buffer
      (runAccOps C OptimizedStringHandler.initial ops).bufferPos = NUL ∧
    (OptimizedStringHandler.getString C
      (runAccOps C OptimizedStringHandler.initial ops)).length ≤
      (runAccOps C OptimizedStringHandler.initial ops).bufferPos := by
  have h0 : AccInv C OptimizedStringHandler.initial := ⟨Nat.zero_le _, rfl⟩
  have h := accInv_runAccOps C ops _ h0
  refine ⟨h.1, h.2, ?_⟩
  have := readCStr_length_le (runAccOps C OptimizedStringHandler.initial ops).buffer
    (runAccOps C OptimizedStringHandler.initial ops).bufferPos h.2 C 0 (Nat.zero_le _)
  simpa [OptimizedStringHandler.getString] using this

/-- C5: every append either succeeds and grows the length by the appended
byte count, or fails returning `false` with the state (length and buffer)
unchanged. -/
theorem accumulator_append_all_or_nothing :
    (∀ (C : Nat) (s : OptimizedStringHandler) (c : Char),
      ((OptimizedStringHandler.appendChar C s c).2 = true ∧
        (OptimizedStringHandler.appendChar C s c).1.bufferPos = s.bufferPos + 1) ∨
      OptimizedStringHandler.appendChar C s c = (s, false)) ∧
    (∀ (C : Nat) (s : OptimizedStringHandler) (str : Str),
      ((OptimizedStringHandler.appendStr C s str).2 = true ∧
        (OptimizedStringHandler.appendStr C s str).1.bufferPos =
          s.bufferPos + cstrlen str) ∨
      OptimizedStringHandler.appendStr C s str = (s, false)) := by
  constructor
  · intro C s c
    simp only [OptimizedStringHandler.appendChar]
    by_cases hc : s.bufferPos ≥ C - 1
    · right; rw [if_pos hc]
    · left; rw [if_neg hc]; exact ⟨rfl, rfl⟩
  · intro C s str
    simp only [OptimizedStringHandler.appendStr, cstrlen]
    by_cases hc : s.bufferPos + (str.takeWhile (fun c => c ≠ NUL)).length ≥ C - 1
    · right; rw [if_pos hc]
    · left; rw [if_neg hc]; exact ⟨rfl, rfl⟩

/-- C2, counterexample: on a capacity-8 accumulator at length 0, the
7-byte append `"abcdefg"` does NOT succeed — the guard
`bufferPos + len >= C - 1` (7 ≥ 7) rejects it, the call returns `false`
and the length stays 0, contradicting the claimed `length() == 7`. -/
theorem capacity8_seven_byte_append_fails :
    (OptimizedStringHandler.appendStr 8 OptimizedStringHandler.initial
      ("abcdefg".toList)).2 = false ∧
    (OptimizedStringHandler.appendStr 8 OptimizedStringHandler.initial
      ("abcdefg".toList)).1.bufferPos = 0 := by
  constructor <;> decide

/-- C2, amended: on a capacity-8 accumulator at length 0, appending 8
bytes fails with no partial write, appending 7 bytes also fails with no
partial write (the result would reach `C − 1`), and appending 6 bytes —
the largest count the guard admits — succeeds with `length() == 6`. -/
theorem capacity8_append_boundary :
    (OptimizedStringHandler.appendStr 8 OptimizedStringHandler.initial
      ("abcdefgh".toList)).2 = false ∧
    (OptimizedStringHandler.appendStr 8 OptimizedStringHandler.initial
      ("abcdefgh".toList)).1.bufferPos = 0 ∧
    OptimizedStringHandler.getString 8
      ((OptimizedStringHandler.appendStr 8 OptimizedStringHandler.initial
        ("abcdefgh".toList)).1) = [] ∧
    (OptimizedStringHandler.appendStr 8 OptimizedStringHandler.initial
      ("abcdefg".toList)).2 = false ∧
    (OptimizedStringHandler.appendStr 8 OptimizedStringHandler.initial
      ("abcdefg".toList)).1.bufferPos = 0 ∧
    OptimizedStringHandler.getString 8
      ((OptimizedStringHandler.appendStr 8 OptimizedStringHandler.initial
        ("abcdefg".toList)).1) = [] ∧
    (OptimizedStringHandler.appendStr 8 OptimizedStringHandler.initial
      ("abcdef".toList)).2 = true ∧
    (OptimizedStringHandler.appendStr 8 OptimizedStringHandler.initial
      ("abcdef".toList)).1.bufferPos = 6 ∧
    OptimizedStringHandler.getString 8
      ((OptimizedStringHandler.appendStr 8 OptimizedStringHandler.initial
        ("abcdef".toList)).1) = "abcdef".toList := by
  refine ⟨?_, ?_, ?_, ?_, ?_, ?_, ?_, ?_, ?_⟩ <;> decide

/-! ## Heap watchdog claims -/

/-- C6, counterexample: a sample taken 1000 ms after the last logged
sample sees 4000 bytes free — below the 5000-byte critical threshold —
yet `forceGarbageCollection` is not invoked, because the critical check
sits inside the 30000 ms logging gate. -/
theorem critical_sample_without_reclaim :
    4000 < 5000 ∧
    MemoryMonitor.checkMemory 4000 1000 ⟨0, 100000⟩ = (⟨0, 4000⟩, false) := by
  constructor
  · decide
  · simp only [MemoryMonitor.checkMemory]
    rw [if_neg (by decide), if_pos (by decide)]

/-- C6, amended: whenever a watchdog sample both falls outside the
30000 ms logging gate and observes free memory below the critical
threshold, `forceGarbageCollection` is invoked during that sample. -/
theorem critical_logged_sample_reclaims (free now : Nat) (st : MemoryMonitorState)
    (h30 : elapsedMillis now st.lastCheck > 30000) (hc : free < 5000) :
    (MemoryMonitor.checkMemory free now st).2 = true := by
  simp only [MemoryMonitor.checkMemory]
  rw [if_pos h30]
  simpa using hc

theorem critical_logged_sample_reclaims_witness :
    elapsedMillis 31001 0 > 30000 ∧ 4000 < 5000 ∧
    (MemoryMonitor.checkMemory 4000 31001 ⟨0, 100000⟩).2 = true :=
  ⟨by decide, by decide,
    critical_logged_sample_reclaims 4000 31001 ⟨0, 100000⟩ (by decide) (by decide)⟩

/-! ## Concrete pipeline evaluations -/

/-- C1: the `"message"` short-circuit path of `optimizedProcessMessage`
bounds its write only by `MAX_MESSAGE_LENGTH`, not by the caller's
`outputSize`: on input `{"message":"abc"}` with a 2-byte output buffer it
stores the 3 value bytes plus a terminator — 4 bytes, overrunning the
2-byte buffer. -/
theorem shortcircuit_ignores_output_capacity :
    optimizedProcessMessage
      (some (serializePayload [("message".toList, "abc".toList)])) false 2 =
      ⟨"abc".toList, 4⟩ ∧ 2 < 4 := by
  constructor <;> decide

/-- C7: on input `{"student_name":"Alice","course_code":"CS101"}` with a
64-byte output buffer, the fallback field scan renders exactly
`"Student: Alice\nCourse: CS101\n"` (29 content bytes plus the
terminator). -/
theorem fallback_render_scenario_b :
    optimizedProcessMessage
      (some (serializePayload
        [("student_name".toList, "Alice".toList),
         ("course_code".toList, "CS101".toList)])) false 64 =
      ⟨"Student: Alice\nCourse: CS101\n".toList, 30⟩ := by
  decide

/-- C10: null input, null output, or a zero output capacity makes
`optimizedProcessMessage` return with nothing written, and a null
`json`, `key` or `value` pointer or a zero `valueSize` makes
`optimizedJSONExtract` return `false` with nothing written. -/
theorem null_and_zero_guards :
    (∀ (inp : Option Str) (onull : Bool) (sz : Nat),
      inp = none ∨ onull = true ∨ sz = 0 →
      optimizedProcessMessage inp onull sz = ⟨[], 0⟩) ∧
    (∀ (j k : Option Str) (vnull : Bool) (vsz : Nat),
      j = none ∨ k = none ∨ vnull = true ∨ vsz = 0 →
      optimizedJSONExtract j k vnull vsz = (false, ⟨[], 0⟩)) := by
  constructor
  · rintro inp onull sz (rfl | h)
    · rfl
    · cases inp with
      | none => rfl
      | some l =>
        simp only [optimizedProcessMessage]
        rw [if_pos h]
  · intro j k vnull vsz h
    cases j with
    | none => rfl
    | some jl =>
      cases k with
      | none => rfl
      | some kl =>
        rcases h with h | h | h | h
        · exact absurd h (by simp)
        · exact absurd h (by simp)
        · simp only [optimizedJSONExtract]
          rw [if_pos (Or.inl h)]
        · simp only [optimizedJSONExtract]
          rw [if_pos (Or.inr h)]

theorem null_and_zero_guards_witness :
    ((none : Option Str) = none ∨ false = true ∨ (5 : Nat) = 0) ∧
    optimizedProcessMessage none false 5 = ⟨[], 0⟩ ∧
    ((some ("ab".toList) : Option Str) = some ("ab".toList) ∧
      (none : Option Str) = none ∨ (none : Option Str) = none ∨
      false = true ∨ (5 : Nat) = 0) ∧
    optimizedJSONExtract (some ("ab".toList)) none false 5 = (false, ⟨[], 0⟩) :=
  ⟨Or.inl rfl,
    (null_and_zero_guards).1 none false 5 (Or.inl rfl),
    Or.inr (Or.inl rfl),
    (null_and_zero_guards).2 (some ("ab".toList)) none false 5 (Or.inr (Or.inl rfl))⟩

/-! ## Debounce state machine claims -/

theorem debounceStep_detected (N c : Nat) (s : PresenceState) (t : Nat)
    (h1 : s.current = false) (h2 : s.streak = true) (h3 : s.consecutiveCount = c)
    (hc : 1 ≤ c) :
    debounceStep N s true t =
      if c + 1 = N then (⟨true, 0, true, t⟩, true)
      else (⟨false, c + 1, true, t⟩, false) := by
  have hcond : (if s.consecutiveCount ≠ 0 ∧ s.streak = true
      then s.consecutiveCount + 1 else 1) = c + 1 := by
    rw [if_pos ⟨by omega, h2⟩, h3]
  simp only [debounceStep, hcond, h1]
  by_cases hN : c + 1 = N
  · rw [if_pos ⟨hN, by simp⟩, if_pos hN]
  · rw [if_neg (by simp [hN]), if_neg hN]

theorem debounceStep_first (N : Nat) (t : Nat) :
    debounceStep N initialPresenceState true t =
      if 1 = N then (⟨true, 0, true, t⟩, true)
      else (⟨false, 1, true, t⟩, false) := by
  by_cases hN : 1 = N
  · rw [if_pos hN]
    cases hN
    simp [debounceStep, initialPresenceState]
  · rw [if_neg hN]
    simp [debounceStep, initialPresenceState, hN]

theorem debounceRun_cons_fst (N : Nat) (s s2 : PresenceState) (e : Bool) (d : Bool)
    (t : Nat) (L : List (Bool × Nat)) (h : debounceStep N s d t = (s2, e)) :
    (debounceRun N s ((d, t) :: L)).1 = (debounceRun N s2 L).1 := by
  simp only [debounceRun, h]

theorem debounceRun_cons_snd (N : Nat) (s s2 : PresenceState) (e : Bool) (d : Bool)
    (t : Nat) (L : List (Bool × Nat)) (h : debounceStep N s d t = (s2, e)) :
    (debounceRun N s ((d, t) :: L)).2 =
      (if e then 1 else 0) + (debounceRun N s2 L).2 := by
  simp only [debounceRun, h]

theorem debounceRun_detected_no_flip (N : Nat) (ts : List Nat) :
    ∀ (c : Nat) (s : PresenceState), s.current = false → s.streak = true →
    s.consecutiveCount = c → 1 ≤ c → c + ts.length < N →
    (debounceRun N s (detStream ts)).1.current = false ∧
    (debounceRun N s (detStream ts)).1.consecutiveCount = c + ts.length ∧
    (debounceRun N s (detStream ts)).1.streak = true ∧
    (debounceRun N s (detStream ts)).2 = 0 := by
  induction ts with
  | nil =>
    intro c s h1 h2 h3 _ _
    simp [detStream, debounceRun, h1, h2, h3]
  | cons t rest ih =>
    intro c s h1 h2 h3 h4 h5
    have h5r : c + rest.length + 1 < N := by
      simp only [List.length_cons] at h5; omega
    have hstep := debounceStep_detected N c s t h1 h2 h3 h4
    rw [if_neg (by omega : ¬(c + 1 = N))] at hstep
    have hrest := ih (c + 1) ⟨false, c + 1, true, t⟩ rfl rfl rfl (by omega) (by omega)
    simp only [detStream, List.map_cons] at hrest ⊢
    refine ⟨?_, ?_, ?_, ?_⟩
    · rw [debounceRun_cons_fst N s _ _ true t _ hstep]
      exact hrest.1
    · rw [debounceRun_cons_fst N s _ _ true t _ hstep, hrest.2.1]
      simp only [List.length_cons]
      omega
    · rw [debounceRun_cons_fst N s _ _ true t _ hstep]
      exact hrest.2.2.1
    · rw [debounceRun_cons_snd N s _ _ true t _ hstep, hrest.2.2.2]
      decide

theorem debounceRun_detected_flip (N : Nat) (ts : List Nat) :
    ∀ (c : Nat) (s : PresenceState), s.current = false → s.streak = true →
    s.consecutiveCount = c → 1 ≤ c → c + ts.length = N → 1 ≤ ts.length →
    (debounceRun N s (detStream ts)).1.current = true ∧
    (debounceRun N s (detStream ts)).1.consecutiveCount = 0 ∧
    (debounceRun N s (detStream ts)).2 = 1 := by
  induction ts with
  | nil => intro c s _ _ _ _ _ h6; simp at h6
  | cons t rest ih =>
    intro c s h1 h2 h3 h4 h5 _
    have hstep := debounceStep_detected N c s t h1 h2 h3 h4
    cases rest with
    | nil =>
      have hN : c + 1 = N := by simpa using h5
      rw [if_pos hN] at hstep
      simp only [detStream, List.map_cons, List.map_nil]
      refine ⟨?_, ?_, ?_⟩
      · rw [debounceRun_cons_fst N s _ _ true t _ hstep]
        rfl
      · rw [debounceRun_cons_fst N s _ _ true t _ hstep]
        rfl
      · rw [debounceRun_cons_snd N s _ _ true t _ hstep]
        rfl
    | cons t2 r2 =>
      have h5r : (c + 1) + (t2 :: r2).length = N := by
        simp only [List.length_cons] at h5 ⊢; omega
      have hlt : ¬(c + 1 = N) := by
        simp only [List.length_cons] at h5r; omega
      rw [if_neg hlt] at hstep
      have hrest := ih (c + 1) ⟨false, c + 1, true, t⟩ rfl rfl rfl (by omega) h5r (by simp)
      simp only [detStream, List.map_cons] at hrest ⊢
      refine ⟨?_, ?_, ?_⟩
      · rw [debounceRun_cons_fst N s _ _ true t _ hstep]
        exact hrest.1
      · rw [debounceRun_cons_fst N s _ _ true t _ hstep]
        exact hrest.2.1
      · rw [debounceRun_cons_snd N s _ _ true t _ hstep, hrest.2.2]
        decide

/-- C9: starting from stable ABSENT, a stream of exactly N consecutive
"detected" observations (N = the configured debounce threshold) leaves
the state ABSENT with no event through the first N − 1 observations,
and on the Nth flips it to PRESENT, emits exactly one state-change event
over the whole stream, and resets the consecutive count to 0. -/
theorem debounce_flips_once_on_nth (N : Nat) (ts : List Nat) (hN : 1 ≤ N)
    (hlen : ts.length = N) :
    (debounceRun N initialPresenceState (detStream (ts.take (N - 1)))).1.current
      = false ∧
    (debounceRun N initialPresenceState (detStream (ts.take (N - 1)))).2 = 0 ∧
    (debounceRun N initialPresenceState (detStream ts)).1.current = true ∧
    (debounceRun N initialPresenceState (detStream ts)).1.consecutiveCount = 0 ∧
    (debounceRun N initialPresenceState (detStream ts)).2 = 1 := by
  cases ts with
  | nil => simp only [List.length_nil] at hlen; omega
  | cons t rest =>
    have hrlen : rest.length = N - 1 := by
      simp only [List.length_cons] at hlen; omega
    have hstep := debounceStep_first N t
    by_cases h1 : N = 1
    · subst h1
      rw [if_pos rfl] at hstep
      have hrest : rest = [] := List.eq_nil_of_length_eq_zero (by omega)
      subst hrest
      refine ⟨?_, ?_, ?_, ?_, ?_⟩
      · simp [detStream, debounceRun, initialPresenceState]
      · simp [detStream, debounceRun]
      · simp only [detStream, List.map_cons, List.map_nil]
        rw [debounceRun_cons_fst 1 initialPresenceState _ _ true t _ hstep]
        rfl
      · simp only [detStream, List.map_cons, List.map_nil]
        rw [debounceRun_cons_fst 1 initialPresenceState _ _ true t _ hstep]
        rfl
      · simp only [detStream, List.map_cons, List.map_nil]
        rw [debounceRun_cons_snd 1 initialPresenceState _ _ true t _ hstep]
        rfl
    · have hN2 : 2 ≤ N := by omega
      rw [if_neg (by omega : ¬(1 = N))] at hstep
      have htake : (t :: rest).take (N - 1) = t :: rest.take (N - 2) := by
        rw [show N - 1 = (N - 2) + 1 by omega]
        rfl
      have hfull := debounceRun_detected_flip N rest 1 ⟨false, 1, true, t⟩ rfl rfl rfl
        (le_refl 1) (by omega) (by omega)
      have hpre := debounceRun_detected_no_flip N (rest.take (N - 2)) 1
        ⟨false, 1, true, t⟩ rfl rfl rfl (le_refl 1)
        (by rw [List.length_take]; omega)
      simp only [detStream, List.map_cons] at hfull hpre ⊢
      rw [htake]
      simp only [List.map_cons]
      refine ⟨?_, ?_, ?_, ?_, ?_⟩
      · rw [debounceRun_cons_fst N initialPresenceState _ _ true t _ hstep]
        exact hpre.1
      · rw [debounceRun_cons_snd N initialPresenceState _ _ true t _ hstep, hpre.2.2.2]
        decide
      · rw [debounceRun_cons_fst N initialPresenceState _ _ true t _ hstep]
        exact hfull.1
      · rw [debounceRun_cons_fst N initialPresenceState _ _ true t _ hstep]
        exact hfull.2.1
      · rw [debounceRun_cons_snd N initialPresenceState _ _ true t _ hstep, hfull.2.2]
        decide

theorem debounce_flips_once_on_nth_witness :
    1 ≤ MAC_DETECTION_DEBOUNCE ∧
    ([100, 200] : List Nat).length = MAC_DETECTION_DEBOUNCE ∧
    ((debounceRun MAC_DETECTION_DEBOUNCE initialPresenceState
        (detStream (([100, 200] : List Nat).take (MAC_DETECTION_DEBOUNCE - 1)))).1.current
      = false ∧
    (debounceRun MAC_DETECTION_DEBOUNCE initialPresenceState
        (detStream (([100, 200] : List Nat).take (MAC_DETECTION_DEBOUNCE - 1)))).2 = 0 ∧
    (debounceRun MAC_DETECTION_DEBOUNCE initialPresenceState
        (detStream ([100, 200] : List Nat))).1.current = true ∧
    (debounceRun MAC_DETECTION_DEBOUNCE initialPresenceState
        (detStream ([100, 200] : List Nat))).1.consecutiveCount = 0 ∧
    (debounceRun MAC_DETECTION_DEBOUNCE initialPresenceState
        (detStream ([100, 200] : List Nat))).2 = 1) :=
  ⟨by decide, by decide,
    debounce_flips_once_on_nth MAC_DETECTION_DEBOUNCE [100, 200] (by decide) (by decide)⟩

/-! ## String-search lemmas -/

theorem isPrefixOfEq (l m : Str) : l.isPrefixOf m = true ↔ l <+: m :=
  List.isPrefixOf_iff_prefix

theorem strstrTail_eq_some (pat : Str) :
    ∀ (hay s : Str), strstrTail pat hay = some s → pat <+: s ∧ s <:+ hay := by
  intro hay
  induction hay with
  | nil =>
    intro s h
    simp only [strstrTail] at h
    by_cases hp : pat.isPrefixOf [] = true
    · rw [if_pos hp] at h
      injection h with h
      subst h
      exact ⟨(isPrefixOfEq _ _).1 hp, List.suffix_refl _⟩
    · rw [if_neg hp] at h
      cases h
  | cons c t ih =>
    intro s h
    simp only [strstrTail] at h
    by_cases hp : pat.isPrefixOf (c :: t) = true
    · rw [if_pos hp] at h
      injection h with h
      subst h
      exact ⟨(isPrefixOfEq _ _).1 hp, List.suffix_refl _⟩
    · rw [if_neg hp] at h
      obtain ⟨h1, h2⟩ := ih s h
      exact ⟨h1, h2.trans (List.suffix_cons c t)⟩

theorem strstrTail_eq_none (pat : Str) :
    ∀ (hay : Str), strstrTail pat hay = none → ∀ s, s <:+ hay → ¬ pat <+: s := by
  intro hay
  induction hay with
  | nil =>
    intro h s hs hp
    have hnil : s = [] := by
      obtain ⟨a, ha⟩ := hs
      exact (List.append_eq_nil.1 ha).2
    subst hnil
    simp only [strstrTail] at h
    rw [if_pos ((isPrefixOfEq _ _).2 hp)] at h
    cases h
  | cons c t ih =>
    intro h s hs hp
    by_cases hc : pat.isPrefixOf (c :: t) = true
    · simp only [strstrTail, if_pos hc] at h
      exact Option.noConfusion h
    · simp only [strstrTail, if_neg hc] at h
      rcases List.suffix_cons_iff.1 hs with rfl | hs2
      · exact hc ((isPrefixOfEq _ _).2 hp)
      · exact ih h s hs2 hp

theorem quoteAlign (k0 : Str) :
    ∀ (k xs ys : Str), '"' ∉ k0 → '"' ∉ k →
    k0 ++ '"' :: xs <+: k ++ '"' :: ys → k0 = k ∧ xs <+: ys := by
  induction k0 with
  | nil =>
    intro k xs ys _ hk hpre
    cases k with
    | nil =>
      simp only [List.nil_append] at hpre
      rw [List.cons_prefix_cons] at hpre
      exact ⟨rfl, hpre.2⟩
    | cons c k2 =>
      simp only [List.nil_append, List.cons_append] at hpre
      rw [List.cons_prefix_cons] at hpre
      exact absurd (hpre.1 ▸ List.mem_cons_self c k2) hk
  | cons c0 k0t ih =>
    intro k xs ys hk0 hk hpre
    simp only [List.mem_cons, not_or] at hk0
    cases k with
    | nil =>
      simp only [List.nil_append, List.cons_append] at hpre
      rw [List.cons_prefix_cons] at hpre
      exact absurd hpre.1.symm hk0.1
    | cons c k2 =>
      simp only [List.cons_append] at hpre
      rw [List.cons_prefix_cons] at hpre
      simp only [List.mem_cons, not_or] at hk
      obtain ⟨he, hrest⟩ := hpre
      obtain ⟨h1, h2⟩ := ih k2 xs ys hk0.2 (by
        intro hmem
        exact hk.2 hmem) hrest
      exact ⟨by rw [he, h1], h2⟩

/-! ## Suffix-shape analysis of serialized payloads -/

theorem shapeTail (p : Payload) (s : Str) (h : Shape p s) :
    ∀ (c : Char) (t : Str), s = c :: t → Shape p t := by
  cases h with
  | whole =>
    intro c t he
    injection he with h1 h2
    rw [← h2]
    exact Shape.atItems p (List.suffix_refl p)
  | atItems q hq =>
    intro c t he
    cases q with
    | nil =>
      injection he with h1 h2
      rw [← h2]
      exact Shape.nil
    | cons kv q2 =>
      have hform : tailStr (kv :: q2) =
          '"' :: (kv.1 ++ '"' :: ':' :: '"' :: kv.2 ++ '"' :: (sepBody q2 ++ ['}'])) := by
        simp [tailStr, bodyStr, serializeItem]
      rw [hform] at he
      injection he with h1 h2
      rw [← h2]
      exact Shape.inKey kv.1 kv.2 q2 kv.1 hq (List.suffix_refl _)
  | atComma q hq =>
    intro c t he
    injection he with h1 h2
    rw [← h2]
    exact Shape.atItems q hq
  | inKey k v q k2 hq hs2 =>
    intro c t he
    cases k2 with
    | nil =>
      injection he with h1 h2
      rw [← h2]
      exact Shape.atColon k v q hq
    | cons a k3 =>
      injection he with h1 h2
      rw [← h2]
      exact Shape.inKey k v q k3 hq ((List.suffix_cons a k3).trans hs2)
  | atColon k v q hq =>
    intro c t he
    injection he with h1 h2
    rw [← h2]
    exact Shape.atValQuote k v q hq
  | atValQuote k v q hq =>
    intro c t he
    injection he with h1 h2
    rw [← h2]
    exact Shape.inVal k v q v hq (List.suffix_refl _)
  | inVal k v q v2 hq hs2 =>
    intro c t he
    cases v2 with
    | nil =>
      injection he with h1 h2
      rw [← h2]
      cases q with
      | nil => exact Shape.atItems [] (List.nil_suffix)
      | cons kv q2 =>
        exact Shape.atComma (kv :: q2) ((List.suffix_cons ((k, v)) (kv :: q2)).trans hq)
    | cons a v3 =>
      injection he with h1 h2
      rw [← h2]
      exact Shape.inVal k v q v3 hq ((List.suffix_cons a v3).trans hs2)
  | nil =>
    intro c t he
    exact List.noConfusion he

theorem shapeOfSuffix (p : Payload) :
    ∀ (a u s : Str), Shape p u → u = a ++ s → Shape p s := by
  intro a
  induction a with
  | nil =>
    intro u s hu he
    rw [List.nil_append] at he
    rw [← he]
    exact hu
  | cons c a2 ih =>
    intro u s hu he
    have ht := shapeTail p u hu c (a2 ++ s) (by rw [he]; rfl)
    exact ih (a2 ++ s) s ht rfl

theorem patternAligned (p : Payload) (hwf : wfPayload p) (k0 : Str)
    (hk0 : wfFieldName k0) (s : Str) (hs : Shape p s)
    (hpre : fieldPattern k0 <+: s) :
    ∃ v q, ((k0, v) :: q) <:+ p ∧
      s = fieldPattern k0 ++ (v ++ '"' :: (sepBody q ++ ['}'])) := by
  obtain ⟨hne, hq0, hc0, hm0⟩ := hk0
  cases hs with
  | whole =>
    exfalso
    simp only [serializePayload, fieldPattern, List.cons_append] at hpre
    rw [List.cons_prefix_cons] at hpre
    exact absurd hpre.1 (by decide)
  | atItems q hq =>
    cases q with
    | nil =>
      exfalso
      simp only [tailStr, bodyStr, List.nil_append, fieldPattern,
        List.cons_append] at hpre
      rw [List.cons_prefix_cons] at hpre
      exact absurd hpre.1 (by decide)
    | cons kv q2 =>
      have hkv := hwf kv (hq.subset (List.mem_cons_self kv q2))
      have hform : tailStr (kv :: q2) =
          '"' :: (kv.1 ++ ('"' :: ':' :: '"' :: (kv.2 ++ ('"' :: (sepBody q2 ++ ['}']))))) := by
        simp [tailStr, bodyStr, serializeItem]
      rw [hform] at hpre
      simp only [fieldPattern, List.cons_append] at hpre
      rw [List.cons_prefix_cons] at hpre
      obtain ⟨-, hpre2⟩ := hpre
      obtain ⟨h1, -⟩ := quoteAlign k0 kv.1 (':' :: ['"'])
        (':' :: '"' :: (kv.2 ++ ('"' :: (sepBody q2 ++ ['}'])))) hq0 hkv.1 hpre2
      subst h1
      refine ⟨kv.2, q2, hq, ?_⟩
      rw [hform]
      simp [fieldPattern]
  | atComma q hq =>
    exfalso
    simp only [fieldPattern, List.cons_append] at hpre
    rw [List.cons_prefix_cons] at hpre
    exact absurd hpre.1 (by decide)
  | inKey k v q k2 hq hs2 =>
    exfalso
    have hk := hwf (k, v) (hq.subset (List.mem_cons_self (k, v) q))
    cases k2 with
    | nil =>
      simp only [List.nil_append, fieldPattern, List.cons_append] at hpre
      rw [List.cons_prefix_cons] at hpre
      obtain ⟨-, hpre2⟩ := hpre
      cases k0 with
      | nil => exact hne rfl
      | cons a k0t =>
        rw [List.cons_append, List.cons_prefix_cons] at hpre2
        exact hc0 (List.mem_cons.2 (Or.inl hpre2.1.symm))
    | cons a k3 =>
      simp only [fieldPattern, List.cons_append] at hpre
      rw [List.cons_prefix_cons] at hpre
      have ha : a ∈ k := hs2.subset (List.mem_cons_self a k3)
      exact hk.1 (hpre.1.symm ▸ ha)
  | atColon k v q hq =>
    exfalso
    simp only [fieldPattern, List.cons_append] at hpre
    rw [List.cons_prefix_cons] at hpre
    exact absurd hpre.1 (by decide)
  | atValQuote k v q hq =>
    exfalso
    have hk := hwf (k, v) (hq.subset (List.mem_cons_self (k, v) q))
    simp only [fieldPattern, List.cons_append] at hpre
    rw [List.cons_prefix_cons] at hpre
    obtain ⟨-, hpre2⟩ := hpre
    obtain ⟨h1, h2⟩ := quoteAlign k0 v (':' :: ['"']) (sepBody q ++ ['}'])
      hq0 hk.2.2.1 hpre2
    cases q with
    | nil =>
      simp only [sepBody, List.nil_append] at h2
      rw [List.cons_prefix_cons] at h2
      exact absurd h2.1 (by decide)
    | cons kv q2 =>
      simp only [sepBody, List.cons_append] at h2
      rw [List.cons_prefix_cons] at h2
      exact absurd h2.1 (by decide)
  | inVal k v q v2 hq hs2 =>
    exfalso
    have hk := hwf (k, v) (hq.subset (List.mem_cons_self (k, v) q))
    cases v2 with
    | nil =>
      simp only [List.nil_append, fieldPattern, List.cons_append] at hpre
      rw [List.cons_prefix_cons] at hpre
      obtain ⟨-, hpre2⟩ := hpre
      cases q with
      | nil =>
        simp only [sepBody, List.nil_append] at hpre2
        cases k0 with
        | nil => exact hne rfl
        | cons a k0t =>
          rw [List.cons_append, List.cons_prefix_cons] at hpre2
          have hlen := hpre2.2.length_le
          simp only [List.length_append, List.length_cons, List.length_nil] at hlen
          omega
      | cons kv q2 =>
        simp only [sepBody, List.cons_append] at hpre2
        cases k0 with
        | nil => exact hne rfl
        | cons a k0t =>
          rw [List.cons_append, List.cons_prefix_cons] at hpre2
          exact hm0 (List.mem_cons.2 (Or.inl hpre2.1.symm))
    | cons a v3 =>
      simp only [fieldPattern, List.cons_append] at hpre
      rw [List.cons_prefix_cons] at hpre
      have ha : a ∈ v := hs2.subset (List.mem_cons_self a v3)
      exact hk.2.2.1 (hpre.1.symm ▸ ha)
  | nil =>
    exfalso
    have hlen := hpre.length_le
    simp only [fieldPattern, List.cons_append, List.length_cons, List.length_append,
      List.length_nil] at hlen
    omega

theorem tailStrCons (kv : Str × Str) (r : Payload) :
    tailStr r <:+ tailStr (kv :: r) := by
  cases r with
  | nil =>
    refine ⟨serializeItem kv, ?_⟩
    simp [tailStr, bodyStr, sepBody]
  | cons kv2 r2 =>
    refine ⟨serializeItem kv ++ [','], ?_⟩
    simp [tailStr, bodyStr, sepBody]

theorem tailStrSuffix (p q : Payload) (h : q <:+ p) :
    tailStr q <:+ tailStr p := by
  obtain ⟨l1, hl⟩ := h
  subst hl
  induction l1 with
  | nil => exact List.suffix_refl _
  | cons kv l2 ih => exact ih.trans (tailStrCons kv (l2 ++ q))

theorem messageFound (p : Payload) (k0 v : Str) (h : (k0, v) ∈ p) :
    ∃ q, ((k0, v) :: q) <:+ p ∧
      fieldPattern k0 <+: tailStr ((k0, v) :: q) := by
  obtain ⟨l1, l2, hl⟩ := List.append_of_mem h
  refine ⟨l2, ?_, ?_⟩
  · rw [hl]
    exact ⟨l1, rfl⟩
  · refine ⟨v ++ ('"' :: (sepBody l2 ++ ['}'])), ?_⟩
    simp [tailStr, bodyStr, serializeItem, fieldPattern]

theorem keyUnique (p : Payload) (hnd : (p.map Prod.fst).Nodup) (k v w : Str)
    (hv : (k, v) ∈ p) (hw : (k, w) ∈ p) : v = w := by
  induction p with
  | nil => cases hv
  | cons kv rest ih =>
    simp only [List.map_cons, List.nodup_cons] at hnd
    rcases List.mem_cons.1 hv with he1 | hv2
    · rcases List.mem_cons.1 hw with he2 | hw2
      · rw [← he1] at he2
        injection he2 with h1 h2
        exact h2.symm
      · exfalso
        apply hnd.1
        have : (k, w).1 ∈ rest.map Prod.fst := List.mem_map_of_mem Prod.fst hw2
        rw [← he1]
        exact this
    · rcases List.mem_cons.1 hw with he2 | hw2
      · exfalso
        apply hnd.1
        have : (k, v).1 ∈ rest.map Prod.fst := List.mem_map_of_mem Prod.fst hv2
        rw [← he2]
        exact this
      · exact ih hnd.2 hv2 hw2

theorem takeWhileBefore (c : Char) (v z : Str) (hv : c ∉ v) :
    (v ++ c :: z).takeWhile (fun a => a ≠ c) = v := by
  induction v with
  | nil => simp [List.takeWhile_cons]
  | cons a v2 ih =>
    simp only [List.mem_cons, not_or] at hv
    simp only [List.cons_append, List.takeWhile_cons]
    rw [if_pos (by
      simp only [decide_eq_true_eq]
      intro he
      exact absurd he.symm hv.1)]
    rw [ih hv.2]

theorem strchrSplitBefore (c : Char) (v z : Str) (hv : c ∉ v) :
    strchrSplit (v ++ c :: z) c = some v := by
  unfold strchrSplit
  rw [if_pos (List.mem_append.2 (Or.inr (List.mem_cons_self c z)))]
  rw [takeWhileBefore c v z hv]

/-- C3: for every well-formed structured payload (distinct, quote-free
field names and quote-free values) containing a `"message"` field whose
value fits within the maximum message length, `optimizedProcessMessage`
writes exactly that field's value (plus its terminator) and returns on
the short-circuit path, regardless of any other fields present. -/
theorem process_message_shortcircuit (p : Payload) (v : Str) (sz : Nat)
    (hwf : wfPayload p) (hnd : (p.map Prod.fst).Nodup)
    (hmem : ("message".toList, v) ∈ p)
    (hfit : v.length < MAX_MESSAGE_LENGTH - 1) (hsz : 1 ≤ sz) :
    optimizedProcessMessage (some (serializePayload p)) false sz =
      ⟨v, v.length + 1⟩ := by
  obtain ⟨q, hsuf, hpat⟩ := messageFound p ("message".toList) v hmem
  have hsufS : tailStr (("message".toList, v) :: q) <:+ serializePayload p :=
    (tailStrSuffix p _ hsuf).trans (List.suffix_cons '{' (tailStr p))
  simp only [optimizedProcessMessage]
  rw [if_neg (by simp only [Bool.false_eq_true, false_or]; omega)]
  rw [if_pos (show (serializePayload p).head? = some '{' from rfl)]
  cases hfind : strstrTail (fieldPattern ("message".toList)) (serializePayload p) with
  | none =>
    exact absurd hpat (strstrTail_eq_none _ _ hfind _ hsufS)
  | some s =>
    obtain ⟨hps, hss⟩ := strstrTail_eq_some _ _ _ hfind
    have hshape : Shape p s := by
      obtain ⟨a, ha⟩ := hss
      exact shapeOfSuffix p a (serializePayload p) s Shape.whole ha.symm
    obtain ⟨v2, q2, hmem2, hseq⟩ := patternAligned p hwf ("message".toList)
      (by decide) s hshape hps
    have hv2 : v2 = v :=
      keyUnique p hnd ("message".toList) v2 v
        (hmem2.subset (List.mem_cons_self _ _)) hmem
    subst hv2
    have hvq : '"' ∉ v2 :=
      (hwf ("message".toList, v2) hmem).2.2.1
    have hdrop : s.drop 11 = v2 ++ ('"' :: (sepBody q2 ++ ['}'])) := by
      rw [hseq]
      have h11 : (11 : Nat) = (fieldPattern ("message".toList)).length := by decide
      rw [h11, List.drop_left]
    dsimp only
    rw [hdrop, strchrSplitBefore '"' v2 (sepBody q2 ++ ['}']) hvq]
    dsimp only
    rw [if_pos hfit]

theorem process_message_shortcircuit_witness :
    wfPayload [("message".toList, "hi".toList), ("course_code".toList, "CS101".toList)] ∧
    (([("message".toList, "hi".toList),
       ("course_code".toList, "CS101".toList)] : Payload).map Prod.fst).Nodup ∧
    ("message".toList, "hi".toList) ∈
      ([("message".toList, "hi".toList),
        ("course_code".toList, "CS101".toList)] : Payload) ∧
    ("hi".toList : Str).length < MAX_MESSAGE_LENGTH - 1 ∧ 1 ≤ 64 ∧
    optimizedProcessMessage
      (some (serializePayload
        [("message".toList, "hi".toList), ("course_code".toList, "CS101".toList)]))
      false 64 = ⟨"hi".toList, "hi".toList.length + 1⟩ :=
  ⟨by decide, by decide, by decide, by decide, by decide,
    process_message_shortcircuit
      [("message".toList, "hi".toList), ("course_code".toList, "CS101".toList)]
      ("hi".toList) 64 (by decide) (by decide) (by decide) (by decide) (by decide)⟩

theorem patternNotFound (p : Payload) (hwf : wfPayload p) (k0 : Str)
    (hk0 : wfFieldName k0) (hno : ∀ kv ∈ p, kv.1 ≠ k0) :
    strstrTail (fieldPattern k0) (serializePayload p) = none := by
  cases hfind : strstrTail (fieldPattern k0) (serializePayload p) with
  | none => rfl
  | some s =>
    exfalso
    obtain ⟨hps, hss⟩ := strstrTail_eq_some _ _ _ hfind
    have hshape : Shape p s := by
      obtain ⟨a, ha⟩ := hss
      exact shapeOfSuffix p a (serializePayload p) s Shape.whole ha.symm
    obtain ⟨v2, q2, hmem2, -⟩ := patternAligned p hwf k0 hk0 s hshape hps
    exact hno (k0, v2) (hmem2.subset (List.mem_cons_self _ _)) rfl

theorem getStringReset :
    OptimizedStringHandler.getString MAX_MESSAGE_LENGTH
      (OptimizedStringHandler.reset OptimizedStringHandler.initial) = [] := by
  decide

theorem takeWhileNoNul (l : Str) (h : NUL ∉ l) :
    l.takeWhile (fun a => a ≠ NUL) = l := by
  induction l with
  | nil => rfl
  | cons a t ih =>
    simp only [List.mem_cons, not_or] at h
    simp only [List.takeWhile_cons]
    rw [if_pos (by
      simp only [decide_eq_true_eq]
      intro he
      exact h.1 he.symm)]
    rw [ih h.2]

/-- C8: a structured payload containing none of the recognized fields
renders empty (only the terminator is stored), and a plain (non-brace)
payload is copied through unchanged up to truncation at
`output_capacity`. -/
theorem process_no_fields_and_plain :
    (∀ (p : Payload) (sz : Nat), wfPayload p →
      (∀ kv ∈ p, kv.1 ∉ recognizedFields) → 1 ≤ sz →
      optimizedProcessMessage (some (serializePayload p)) false sz = ⟨[], 1⟩) ∧
    (∀ (inp : Str) (sz : Nat), inp.head? ≠ some '{' → NUL ∉ inp → 1 ≤ sz →
      optimizedProcessMessage (some inp) false sz =
        ⟨inp.take (sz - 1), (inp.take (sz - 1)).length + 1⟩) := by
  constructor
  · intro p sz hwf hno hsz
    have hnone : ∀ k0, k0 ∈ recognizedFields → wfFieldName k0 →
        strstrTail (fieldPattern k0) (serializePayload p) = none := by
      intro k0 hk0mem hk0
      refine patternNotFound p hwf k0 hk0 ?_
      intro kv hkv he
      exact hno kv hkv (he ▸ hk0mem)
    have h1 := hnone ("message".toList) (by decide) (by decide)
    have h2 := hnone ("student_name".toList) (by decide) (by decide)
    have h3 := hnone ("course_code".toList) (by decide) (by decide)
    have h4 := hnone ("request_message".toList) (by decide) (by decide)
    simp only [optimizedProcessMessage]
    rw [if_neg (by simp only [Bool.false_eq_true, false_or]; omega)]
    rw [if_pos (show (serializePayload p).head? = some '{' from rfl)]
    rw [h1]
    dsimp only
    simp only [fallbackRender, processField]
    rw [h2]
    dsimp only
    rw [h3]
    dsimp only
    rw [h4]
    dsimp only
    rw [getStringReset]
    simp only [safeStringCopy]
    rw [if_neg (by omega)]
    simp
  · intro inp sz hhead hnul hsz
    simp only [optimizedProcessMessage]
    rw [if_neg (by simp only [Bool.false_eq_true, false_or]; omega)]
    rw [if_neg hhead]
    simp only [safeStringCopy]
    rw [if_neg (by omega)]
    rw [takeWhileNoNul inp hnul]

theorem process_no_fields_and_plain_witness :
    wfPayload [("foo".toList, "bar".toList)] ∧
    (∀ kv ∈ ([("foo".toList, "bar".toList)] : Payload),
      kv.1 ∉ recognizedFields) ∧
    (1 : Nat) ≤ 8 ∧
    optimizedProcessMessage
      (some (serializePayload [("foo".toList, "bar".toList)])) false 8 = ⟨[], 1⟩ ∧
    ("hello".toList : Str).head? ≠ some '{' ∧ NUL ∉ ("hello".toList : Str) ∧
    (1 : Nat) ≤ 4 ∧
    optimizedProcessMessage (some ("hello".toList)) false 4 =
      ⟨("hello".toList).take (4 - 1), (("hello".toList).take (4 - 1)).length + 1⟩ :=
  ⟨by decide, by decide, by decide,
    process_no_fields_and_plain.1 [("foo".toList, "bar".toList)] 8
      (by decide) (by decide) (by decide),
    by decide, by decide, by decide,
    process_no_fields_and_plain.2 ("hello".toList) 4
      (by decide) (by decide) (by decide)⟩
